/-
  Verification development for the UVM repository (assembler + interpreter).

  Shallow embedding of:
    - src/uvm_asm.py     (pack_instruction, asm_* helpers, asm, full_asm)
    - src/interpreter.py (decode_instruction, run_program)
    - src/uvm_memory.py  (OPCODE_NAMES, UVMMemory.read_data / write_data)

  Conventions of the embedding:
    - Python `bytes` values are `List Nat` (each element a byte value).
    - Python unbounded `int` is `Int`; operands extracted by decoding are `Nat`
      (they arise as nonnegative shifts of a nonnegative value).
    - A raised Python exception is an `Except` error carrying the structured
      content of the exception (the formatted message text is not modelled).
-/
import Mathlib

namespace UVM

/-- Decidable equality for `Except`, used to evaluate concrete runs of
the embedded functions inside proofs. -/
instance exceptDecEq {ε α : Type} [DecidableEq ε] [DecidableEq α] :
    DecidableEq (Except ε α) := fun x y =>
  match x, y with
  | .error a, .error b =>
    if h : a = b then .isTrue (by rw [h]) else .isFalse (by simp [h])
  | .error _, .ok _ => .isFalse (by simp)
  | .ok _, .error _ => .isFalse (by simp)
  | .ok a, .ok b =>
    if h : a = b then .isTrue (by rw [h]) else .isFalse (by simp [h])

/-- Structured content of the exceptions raised by the source code.
`badLength`/`unknownOpcode` are the `ValueError`s of `decode_instruction`
(the spec's `DecodingError`); `encodingA`/`encodingB` the `ValueError`s of
`pack_instruction` (the spec's `EncodingError`); `memoryRead`/`memoryWrite`
the `IndexError`s of `UVMMemory.read_data`/`write_data` (the spec's
`MemoryAccessError`); `missingArg`/`badInt` the errors of `full_asm`
(the spec's `SyntaxError`); `unknownMnemonic` the `ValueError` of `asm`. -/
inductive VMError where
  | badLength (got : Nat)
  | unknownOpcode (a : Nat)
  | encodingA (a : Int)
  | encodingB (b : Int)
  | memoryRead (address : Nat)
  | memoryWrite (address : Nat)
  | missingArg (cmd : String)
  | badInt (s : String)
  | unknownMnemonic (op : String)
  deriving DecidableEq, Repr

/-! ### Little-endian byte serialization

`toBytesLE n v` embeds Python `v.to_bytes(n, "little")` (the callers always
satisfy `v < 256 ^ n`, so the `OverflowError` case of `to_bytes` is dead);
`fromBytesLE` embeds `int.from_bytes(bs, "little")`. -/

def toBytesLE : Nat → Nat → List Nat
  | 0, _ => []
  | n + 1, v => v % 256 :: toBytesLE n (v / 256)

def fromBytesLE : List Nat → Nat
  | [] => 0
  | b :: rest => b + 256 * fromBytesLE rest

/-! ### Opcode table (src/uvm_memory.py, `OPCODE_NAMES`) -/

def OPCODE_NAMES (a : Nat) : Option String :=
  if a = 14 then some "load_const"
  else if a = 11 then some "read_value"
  else if a = 94 then some "write_value"
  else if a = 69 then some "less"
  else none

/-! ### Encoder (src/uvm_asm.py) -/

/-- Embeds `pack_instruction(a, b)`: range-checks the two fields, then renders
`a | (b << 7)` as 5 bytes little-endian. -/
def pack_instruction (a b : Int) : Except VMError (List Nat) :=
  if a < 0 ∨ (1 <<< 7 : Int) ≤ a then .error (.encodingA a)
  else if b < 0 ∨ (1 <<< 26 : Int) ≤ b then .error (.encodingB b)
  else .ok (toBytesLE 5 (a.toNat ||| (b.toNat <<< 7)))

def OP_LOAD_CONST : Int := 14
def OP_READ : Int := 11
def OP_WRITE : Int := 94
def OP_LESS : Int := 69

def asm_load_const (const : Int) : Except VMError (List Nat) :=
  pack_instruction OP_LOAD_CONST const

def asm_read_value (address : Int) : Except VMError (List Nat) :=
  pack_instruction OP_READ address

def asm_write_value (address : Int) : Except VMError (List Nat) :=
  pack_instruction OP_WRITE address

def asm_less (address : Int) : Except VMError (List Nat) :=
  pack_instruction OP_LESS address

/-! ### Decoder (src/interpreter.py, `decode_instruction`) -/

/-- Embeds `decode_instruction`: checks the slice is 5 bytes, reads it as a
little-endian integer, splits opcode `value & 0x7F` from operand
`value >> 7`, and looks the opcode up in `OPCODE_NAMES`. -/
def decode_instruction (instruction_bytes : List Nat) :
    Except VMError (String × Nat) :=
  if instruction_bytes.length ≠ 5 then .error (.badLength instruction_bytes.length)
  else
    let value := fromBytesLE instruction_bytes
    let a := value &&& 0x7F
    let b := value >>> 7
    match OPCODE_NAMES a with
    | none => .error (.unknownOpcode a)
    | some cmd_name => .ok (cmd_name, b)

/-! ### Machine state (src/uvm_memory.py, `UVMMemory`) -/

structure UVMMemory where
  data : List Int
  stack : List Int
  ip : Nat
  acc : Int
  deriving DecidableEq, Repr

/-- Embeds `UVMMemory.__init__(data_size=2048)`: zeroed data, empty stack, ip 0, acc 0. -/
def UVMMemory.init (data_size : Nat := 2048) : UVMMemory :=
  { data := List.replicate data_size 0, stack := [], ip := 0, acc := 0 }

/-- Embeds `UVMMemory.read_data`: bounds-checked read from data memory. The
source checks `0 <= address < len(self.data)`; the lower bound is
automatic for `Nat` addresses (decoded operands are nonnegative). When
in range, `data[address]` is returned (the `getD` default is dead). -/
def UVMMemory.read_data (m : UVMMemory) (address : Nat) : Except VMError Int :=
  if address < m.data.length then .ok (m.data.getD address 0)
  else .error (.memoryRead address)

/-- Embeds `UVMMemory.write_data`: bounds-checked write to data memory. -/
def UVMMemory.write_data (m : UVMMemory) (address : Nat) (value : Int) :
    Except VMError UVMMemory :=
  if address < m.data.length then .ok { m with data := m.data.set address value }
  else .error (.memoryWrite address)

/-! ### Interpreter loop (src/interpreter.py, `run_program`) -/

/-- One entry of the execution log built by `run_program`. The source
formats these as Russian text lines; the embedding keeps the structured
content of each line. `info` is the startup line with the instruction
count; `trace` is the per-instruction line (address, mnemonic, operand,
accumulator before execution); `runtimeError` is the line logged when
`decode_instruction` raises, carrying the caught exception;
`unknownCmd` is the defensive `else` branch of the dispatch; `summary`
is the final three lines (terminal ip, final acc, first 16 data cells). -/
inductive LogEntry where
  | info (count : Nat)
  | trace (ip : Nat) (cmd : String) (operand : Nat) (acc : Int)
  | runtimeError (ip : Nat) (e : VMError)
  | unknownCmd (cmd : String)
  | summary (ip : Nat) (acc : Int) (cells : List Int)
  deriving DecidableEq, Repr

/-- Outcome of `run_program`: either the function returns (yielding the
log, with the memory object mutated in place), or a Python exception
propagates out of it (the local log is lost, the memory keeps the
mutations made before the raise). `outOfFuel` is an artifact of the
fuel-indexed loop below; `runLoop_isSome` proves `run_program` never
produces it. -/
inductive RunResult where
  | finished (m : UVMMemory) (log : List LogEntry)
  | raised (e : VMError) (m : UVMMemory)
  | outOfFuel
  deriving DecidableEq, Repr

/-- Prepends a log entry to the log of a still-running loop outcome. -/
def consLog (t : LogEntry) :
    Option (Except (VMError × UVMMemory) (UVMMemory × List LogEntry)) →
    Option (Except (VMError × UVMMemory) (UVMMemory × List LogEntry))
  | none => none
  | some (.error x) => some (.error x)
  | some (.ok (m, log)) => some (.ok (m, t :: log))

/-- The `if/elif` dispatch of the loop body of `run_program` (the
`--- ВЫПОЛНЕНИЕ КОМАНД ---` chain), applied to one decoded command.
`ok (some m2)` is a completed dispatch with `m2` the mutated memory
(the `memory.ip = new_ip` step is performed by the caller, as in the
source); `ok none` is the defensive `else` branch (log and `break`);
`error (e, m2)` is a Python exception propagating out of the loop body
with `m2` the memory at the raise (no memory mutation precedes any of
the raising calls). -/
def dispatch (cmd : String) (operand : Nat) (m : UVMMemory) :
    Except (VMError × UVMMemory) (Option UVMMemory) :=
  if cmd = "load_const" then .ok (some { m with acc := (operand : Int) })
  else if cmd = "read_value" then
    match m.read_data operand with
    | .error e => .error (e, m)
    | .ok value => .ok (some { m with acc := value })
  else if cmd = "write_value" then
    match m.write_data operand m.acc with
    | .error e => .error (e, m)
    | .ok m2 => .ok (some m2)
  else if cmd = "less" then
    match m.read_data operand with
    | .error e => .error (e, m)
    | .ok lhs =>
      match m.write_data operand (if lhs < m.acc then 1 else 0) with
      | .error e => .error (e, m)
      | .ok m2 => .ok (some m2)
  else .ok none

/-- The `while memory.ip < len(instructions)` loop of `run_program`.
Returns `some (.ok (m, log))` when the loop exits (condition false, or
`break` on a caught decode error / unknown command), with `log` the
entries appended by the loop body; `some (.error (e, m))` when an
uncaught exception (a memory-access `IndexError`) propagates, `m` being
the state at the raise. The loop condition is tested before the fuel so
that fuel `instructions.length` always suffices (each iteration
increments `ip` by one); `none` (fuel exhausted) is unreachable from
`run_program`, see `runLoop_isSome`.

Body, in source order: fetch `instructions[ip]`; `try` decode, on
failure log and `break`; log the trace line; `dispatch` the command,
with `memory.ip = new_ip` only after a successful dispatch. -/
def runLoop (instructions : List (List Nat)) :
    Nat → UVMMemory →
    Option (Except (VMError × UVMMemory) (UVMMemory × List LogEntry))
  | fuel, m =>
    if h : m.ip < instructions.length then
      match fuel with
      | 0 => none
      | fuel + 1 =>
        match decode_instruction (instructions.get ⟨m.ip, h⟩) with
        | .error e => some (.ok (m, [.runtimeError m.ip e]))
        | .ok (cmd, operand) =>
          let t := LogEntry.trace m.ip cmd operand m.acc
          match dispatch cmd operand m with
          | .error em => some (.error em)
          | .ok none => some (.ok (m, [t, .unknownCmd cmd]))
          | .ok (some m2) =>
            consLog t (runLoop instructions fuel { m2 with ip := m.ip + 1 })
    else
      some (.ok (m, []))

/-- Structural worker for `chunkBytes`; the first argument is fuel, and
any fuel of at least `bytecode.length` gives the full chunking (each
step consumes a nonempty prefix). -/
def chunkBytesAux : Nat → List Nat → List (List Nat)
  | 0, _ => []
  | n + 1, bytecode =>
    if bytecode = [] then []
    else bytecode.take 5 :: chunkBytesAux n (bytecode.drop 5)

/-- Embeds `[bytecode[i:i + 5] for i in range(0, len(bytecode), 5)]`: the list of
consecutive 5-byte windows, the last of which may be shorter. -/
def chunkBytes (bytecode : List Nat) : List (List Nat) :=
  chunkBytesAux bytecode.length bytecode

/-- Embeds `run_program(bytecode, memory)`: chunks the bytecode, logs the
startup line, runs the loop, and appends the final summary lines when
the loop exits without an uncaught exception. -/
def run_program (bytecode : List Nat) (memory : UVMMemory) : RunResult :=
  let instructions := chunkBytes bytecode
  match runLoop instructions instructions.length memory with
  | none => .outOfFuel
  | some (.error (e, m)) => .raised e m
  | some (.ok (m, log)) =>
      .finished m (.info instructions.length :: log ++
        [.summary m.ip m.acc (m.data.take 16)])

/-! ### Assembler front end (src/uvm_asm.py, `asm` and `full_asm`) -/

/-- Value of a list of ASCII decimal digits. -/
def digitsToNat (cs : List Char) : Nat :=
  cs.foldl (fun acc c => acc * 10 + (c.toNat - Char.toNat (Char.ofNat 48))) 0

/-- Python `str.strip()` on a character list: drop whitespace from both
ends. -/
def trimChars (cs : List Char) : List Char :=
  ((cs.dropWhile Char.isWhitespace).reverse.dropWhile Char.isWhitespace).reverse

/-- Python `s.split(sep)` for a one-character separator: always a
nonempty list of (possibly empty) fields. -/
def splitOnChar (sep : Char) : List Char → List (List Char)
  | [] => [[]]
  | c :: rest =>
    if c = sep then [] :: splitOnChar sep rest
    else
      match splitOnChar sep rest with
      | [] => [[c]]
      | field :: fields => (c :: field) :: fields

/-- Python `int(s)` on an already-stripped string, restricted to the
base-10 grammar the assembler relies on: an optional sign followed by
ASCII digits. (Python's `int` additionally tolerates underscores
between digits and non-ASCII digits; no claim depends on those.) -/
def parse_int (s : List Char) : Option Int :=
  match s with
  | [] => none
  | c :: rest =>
    if c = Char.ofNat 45 then
      if rest ≠ [] ∧ rest.all (·.isDigit) then some (-(digitsToNat rest : Int))
      else none
    else if c = Char.ofNat 43 then
      if rest ≠ [] ∧ rest.all (·.isDigit) then some ((digitsToNat rest : Int))
      else none
    else
      if (c :: rest).all (·.isDigit) then some ((digitsToNat (c :: rest) : Int))
      else none

/-- Steps 1-2 of the per-line processing in `full_asm`: strip the line;
if it contains `#`, keep only the text before the first `#`
(`line.split("#")[0]`, i.e. `takeWhile (· ≠ '#')`) and strip again
(stripping is idempotent, so applying the second strip unconditionally
is equivalent to the source's conditional). -/
def stripLine (line : List Char) : List Char :=
  trimChars ((trimChars line).takeWhile (· ≠ Char.ofNat 35))

/-- Step 3 of the per-line processing in `full_asm`:
`parts = line.split(";")`, `cmd = parts[0].strip()`; if there is a second
field (`len(parts) > 1`, i.e. the tail of the split is nonempty) and it
is nonempty after stripping, parse it with `int` (failure is the
`ValueError` of `int`, the spec's `SyntaxError`); otherwise raise the
missing-argument `ValueError`. `ok none` is a skipped blank line. The
`[]` branch of the split is unreachable (`splitOnChar` always returns at
least one field, see `splitOnChar_ne_nil`). -/
def parse_line (line : List Char) : Except VMError (Option (String × Int)) :=
  if stripLine line = [] then .ok none
  else
    match splitOnChar (Char.ofNat 59) (stripLine line) with
    | [] => .error (.missingArg "")
    | p0 :: ps =>
      let cmd := String.mk (trimChars p0)
      match ps with
      | [] => .error (.missingArg cmd)
      | p1 :: _ =>
        if trimChars p1 ≠ [] then
          match parse_int (trimChars p1) with
          | some n => .ok (some (cmd, n))
          | none => .error (.badInt (String.mk (trimChars p1)))
        else .error (.missingArg cmd)

/-- The line loop of `full_asm`: first failing line aborts; parsed
entries are appended to the IR in line order. -/
def parse_lines : List (List Char) → Except VMError (List (String × Int))
  | [] => .ok []
  | line :: rest =>
    match parse_line line with
    | .error e => .error e
    | .ok none => parse_lines rest
    | .ok (some entry) =>
      match parse_lines rest with
      | .error e => .error e
      | .ok ir => .ok (entry :: ir)

/-- The per-entry dispatch of `asm`'s loop body (the `if/elif` chain
mapping a mnemonic to its `asm_*` encoder). -/
def encode_entry (op : String) (arg : Int) : Except VMError (List Nat) :=
  if op = "load_const" then asm_load_const arg
  else if op = "read_value" then asm_read_value arg
  else if op = "write_value" then asm_write_value arg
  else if op = "less" then asm_less arg
  else .error (.unknownMnemonic op)

/-- Embeds `asm(IR)`: concatenates the encodings of the IR entries in order;
the first failing entry aborts the whole translation. -/
def asm : List (String × Int) → Except VMError (List Nat)
  | [] => .ok []
  | (op, arg) :: rest =>
    match encode_entry op arg with
    | .error e => .error e
    | .ok w =>
      match asm rest with
      | .error e => .error e
      | .ok ws => .ok (w ++ ws)

/-- Embeds `text.splitlines()` for `\n`-separated text (the claims exercise no
other line terminator; on text already stripped of outer whitespace the
two agree). -/
def splitLines (text : String) : List (List Char) :=
  splitOnChar (Char.ofNat 10) (trimChars text.toList)

/-- Embeds `full_asm(text)`: strip the whole text, parse every line into the IR,
then lower the IR with `asm`; any failure aborts with that error and no
partial artifact. -/
def full_asm (text : String) : Except VMError (List Nat × List (String × Int)) :=
  match parse_lines (splitLines text) with
  | .error e => .error e
  | .ok IR =>
    match asm IR with
    | .error e => .error e
    | .ok bytecode => .ok (bytecode, IR)

/-! ## Lemmas

### Byte serialization, instruction words, and chunking -/

theorem toBytesLE_length (n v : Nat) : (toBytesLE n v).length = n := by
  induction n generalizing v with
  | zero => rfl
  | succ k ih => simp [toBytesLE, ih]

theorem fromBytesLE_toBytesLE (n v : Nat) (h : v < 256 ^ n) :
    fromBytesLE (toBytesLE n v) = v := by
  induction n generalizing v with
  | zero => simp [pow_zero] at h; simp [toBytesLE, fromBytesLE]; omega
  | succ k ih =>
    have hdiv : v / 256 < 256 ^ k := by
      rw [Nat.div_lt_iff_lt_mul (by norm_num)]
      calc v < 256 ^ (k + 1) := h
        _ = 256 ^ k * 256 := by ring
    simp [toBytesLE, fromBytesLE, ih (v / 256) hdiv]
    omega

theorem lor_shiftLeft_eq (a b : Nat) (h : a < 128) :
    a ||| (b <<< 7) = b * 128 + a := by
  apply Nat.eq_of_testBit_eq
  intro j
  have h7 : a < 2 ^ 7 := h
  have hmul : b * 128 + a = 2 ^ 7 * b + a := by ring
  rw [hmul, Nat.testBit_mul_pow_two_add b h7 j]
  rcases Nat.lt_or_ge j 7 with hj | hj
  · simp [Nat.testBit_or, Nat.testBit_shiftLeft, Nat.not_le_of_lt hj, hj]
  · have ha : a.testBit j = false := by
      apply Nat.testBit_lt_two_pow
      calc a < 2 ^ 7 := h7
        _ ≤ 2 ^ j := Nat.pow_le_pow_right (by norm_num) hj
    simp [Nat.testBit_or, Nat.testBit_shiftLeft, hj, ha, Nat.not_lt_of_le hj]

theorem word_value_lt (a b : Nat) (ha : a < 128) (hb : b < 2 ^ 26) :
    a ||| (b <<< 7) < 256 ^ 5 := by
  rw [lor_shiftLeft_eq a b ha]
  calc b * 128 + a < 2 ^ 26 * 128 + 128 := by
        have : b * 128 ≤ (2 ^ 26 - 1) * 128 := Nat.mul_le_mul_right 128 (by omega)
        omega
    _ ≤ 256 ^ 5 := by norm_num

theorem word_low_bits (a b : Nat) (ha : a < 128) :
    (a ||| (b <<< 7)) &&& 0x7F = a := by
  rw [lor_shiftLeft_eq a b ha]
  have : (b * 128 + a) &&& 0x7F = (b * 128 + a) % 2 ^ 7 := by
    have := Nat.and_pow_two_sub_one_eq_mod (b * 128 + a) 7
    norm_num at this ⊢
    exact this
  rw [this]
  have : (b * 128 + a) % 2 ^ 7 = a := by
    norm_num
    rw [Nat.mul_comm, Nat.mul_add_mod 128 b a]
    exact Nat.mod_eq_of_lt ha
  rw [this]

theorem word_high_bits (a b : Nat) (ha : a < 128) :
    (a ||| (b <<< 7)) >>> 7 = b := by
  rw [lor_shiftLeft_eq a b ha, Nat.shiftRight_eq_div_pow]
  norm_num
  rw [Nat.mul_comm, Nat.mul_add_div (by norm_num) b a,
    Nat.div_eq_of_lt ha]
  omega

theorem chunkBytesAux_fuel (n n2 : Nat) (bytecode : List Nat)
    (h : bytecode.length ≤ n) (h2 : bytecode.length ≤ n2) :
    chunkBytesAux n bytecode = chunkBytesAux n2 bytecode := by
  induction n generalizing n2 bytecode with
  | zero =>
    have : bytecode = [] := List.eq_nil_of_length_eq_zero (by omega)
    subst this
    cases n2 <;> simp [chunkBytesAux]
  | succ k ih =>
    by_cases hb : bytecode = []
    · subst hb; cases n2 <;> simp [chunkBytesAux]
    · have hlen : 0 < bytecode.length := List.length_pos.mpr hb
      cases n2 with
      | zero => omega
      | succ k2 =>
        simp only [chunkBytesAux, if_neg hb]
        rw [ih k2 (bytecode.drop 5) (by simp; omega) (by simp; omega)]

theorem chunkBytes_cons (bytecode : List Nat) (h : bytecode ≠ []) :
    chunkBytes bytecode = bytecode.take 5 :: chunkBytes (bytecode.drop 5) := by
  have hlen : 0 < bytecode.length := List.length_pos.mpr h
  unfold chunkBytes
  cases hn : bytecode.length with
  | zero => omega
  | succ k =>
    simp only [chunkBytesAux, if_neg h]
    rw [chunkBytesAux_fuel k (bytecode.drop 5).length (bytecode.drop 5)
      (by simp; omega) (by simp)]

theorem chunkBytes_nil : chunkBytes [] = [] := rfl

/-! ### Lexing lemmas -/

theorem splitOnChar_ne_nil (sep : Char) (cs : List Char) :
    splitOnChar sep cs ≠ [] := by
  cases cs with
  | nil => simp [splitOnChar]
  | cons c rest =>
    rw [splitOnChar]
    by_cases h : c = sep
    · simp [h]
    · rw [if_neg h]
      cases hs : splitOnChar sep rest <;> simp

/-! ### Interpreter loop lemmas -/

theorem consLog_isSome (t : LogEntry)
    (o : Option (Except (VMError × UVMMemory) (UVMMemory × List LogEntry))) :
    (consLog t o).isSome = o.isSome := by
  match o with
  | none => rfl
  | some (.error x) => rfl
  | some (.ok (m, log)) => rfl

theorem runLoop_exit (instructions : List (List Nat)) (fuel : Nat)
    (m : UVMMemory) (h : ¬ m.ip < instructions.length) :
    runLoop instructions fuel m = some (.ok (m, [])) := by
  rw [runLoop, dif_neg h]

theorem runLoop_succ (instructions : List (List Nat)) (fuel : Nat)
    (m : UVMMemory) (h : m.ip < instructions.length) :
    runLoop instructions (fuel + 1) m =
      match decode_instruction (instructions.get ⟨m.ip, h⟩) with
      | .error e => some (.ok (m, [.runtimeError m.ip e]))
      | .ok (cmd, operand) =>
        match dispatch cmd operand m with
        | .error em => some (.error em)
        | .ok none =>
          some (.ok (m, [.trace m.ip cmd operand m.acc, .unknownCmd cmd]))
        | .ok (some m2) =>
          consLog (.trace m.ip cmd operand m.acc)
            (runLoop instructions fuel { m2 with ip := m.ip + 1 }) := by
  rw [runLoop, dif_pos h]

theorem runLoop_isSome (instructions : List (List Nat)) (fuel : Nat)
    (m : UVMMemory) (h : instructions.length - m.ip ≤ fuel) :
    (runLoop instructions fuel m).isSome := by
  induction fuel generalizing m with
  | zero =>
    rw [runLoop_exit instructions 0 m (by omega)]
    rfl
  | succ f ih =>
    by_cases hip : m.ip < instructions.length
    · rw [runLoop_succ instructions f m hip]
      rcases hd : decode_instruction (instructions.get ⟨m.ip, hip⟩) with e | ⟨cmd, operand⟩
      · simp
      · rcases hdisp : dispatch cmd operand m with em | om
        · simp [hdisp]
        · rcases om with _ | m2
          · simp [hdisp]
          · simp only [hdisp, consLog_isSome]
            exact ih { m2 with ip := m.ip + 1 } (by simp; omega)
    · rw [runLoop_exit instructions (f + 1) m hip]
      rfl

/-- Adequacy of the fuel: `run_program` never exhausts its fuel: the initial fuel
`instructions.length` bounds the number of loop iterations. -/
theorem run_program_ne_outOfFuel (bytecode : List Nat) (memory : UVMMemory) :
    run_program bytecode memory ≠ .outOfFuel := by
  unfold run_program
  have := runLoop_isSome (chunkBytes bytecode) (chunkBytes bytecode).length
    memory (by omega)
  rcases hr : runLoop (chunkBytes bytecode) (chunkBytes bytecode).length memory
    with _ | (⟨e, m⟩ | ⟨m, log⟩)
  · rw [hr] at this; simp [Option.isSome] at this
  · simp [hr]
  · simp [hr]

/-! ### Dispatch lemmas: the semantics of the four commands -/

theorem dispatch_load_const (operand : Nat) (m : UVMMemory) :
    dispatch "load_const" operand m = .ok (some { m with acc := (operand : Int) }) :=
  rfl

theorem dispatch_read_value (operand : Nat) (m : UVMMemory)
    (h : operand < m.data.length) :
    dispatch "read_value" operand m =
      .ok (some { m with acc := m.data.getD operand 0 }) := by
  rw [dispatch, if_neg (by decide), if_pos rfl, UVMMemory.read_data, if_pos h]

theorem dispatch_read_value_oob (operand : Nat) (m : UVMMemory)
    (h : ¬ operand < m.data.length) :
    dispatch "read_value" operand m = .error (.memoryRead operand, m) := by
  rw [dispatch, if_neg (by decide), if_pos rfl, UVMMemory.read_data, if_neg h]

theorem dispatch_write_value (operand : Nat) (m : UVMMemory)
    (h : operand < m.data.length) :
    dispatch "write_value" operand m =
      .ok (some { m with data := m.data.set operand m.acc }) := by
  rw [dispatch, if_neg (by decide), if_neg (by decide), if_pos rfl,
    UVMMemory.write_data, if_pos h]

theorem dispatch_write_value_oob (operand : Nat) (m : UVMMemory)
    (h : ¬ operand < m.data.length) :
    dispatch "write_value" operand m = .error (.memoryWrite operand, m) := by
  rw [dispatch, if_neg (by decide), if_neg (by decide), if_pos rfl,
    UVMMemory.write_data, if_neg h]

theorem dispatch_less (operand : Nat) (m : UVMMemory)
    (h : operand < m.data.length) :
    dispatch "less" operand m =
      .ok (some { m with
        data := m.data.set operand
          (if m.data.getD operand 0 < m.acc then 1 else 0) }) := by
  rw [dispatch, if_neg (by decide), if_neg (by decide), if_neg (by decide),
    if_pos rfl, UVMMemory.read_data, if_pos h]
  simp only [UVMMemory.write_data, if_pos h]

theorem dispatch_less_oob (operand : Nat) (m : UVMMemory)
    (h : ¬ operand < m.data.length) :
    dispatch "less" operand m = .error (.memoryRead operand, m) := by
  rw [dispatch, if_neg (by decide), if_neg (by decide), if_neg (by decide),
    if_pos rfl, UVMMemory.read_data, if_neg h]

/-! ### Decoding encoded words -/

theorem decode_toBytes (a b : Nat) (ha : a < 128) (hb : b < 2 ^ 26)
    (name : String) (hn : OPCODE_NAMES a = some name) :
    decode_instruction (toBytesLE 5 (a ||| (b <<< 7))) = .ok (name, b) := by
  have hlen : (toBytesLE 5 (a ||| (b <<< 7))).length = 5 := toBytesLE_length 5 _
  have hval : fromBytesLE (toBytesLE 5 (a ||| (b <<< 7))) = a ||| (b <<< 7) :=
    fromBytesLE_toBytesLE 5 _ (word_value_lt a b ha hb)
  rw [decode_instruction, if_neg (by rw [hlen]; simp)]
  simp only [hval, word_low_bits a b ha, word_high_bits a b ha, hn]

/-! ### Chunk structure of the byte stream -/

theorem chunkBytes_length_aux :
    ∀ (n : Nat) (bs : List Nat), bs.length = n →
      (chunkBytes bs).length = (bs.length + 4) / 5 := by
  intro n
  induction n using Nat.strong_induction_on with
  | _ n ih =>
    intro bs hn
    by_cases hb : bs = []
    · subst hb; simp [chunkBytes_nil]
    · have hpos : 0 < bs.length := List.length_pos.mpr hb
      rw [chunkBytes_cons bs hb]
      have hdrop : (bs.drop 5).length = bs.length - 5 := by simp
      have hrec := ih (bs.drop 5).length (by omega) (bs.drop 5) rfl
      simp only [List.length_cons, hrec, hdrop]
      omega

theorem chunkBytes_length (bs : List Nat) :
    (chunkBytes bs).length = (bs.length + 4) / 5 :=
  chunkBytes_length_aux bs.length bs rfl

theorem chunkBytes_split_aux :
    ∀ (n : Nat) (bs : List Nat), bs.length = n → bs.length % 5 ≠ 0 →
      chunkBytes bs =
        chunkBytes (bs.take (5 * (bs.length / 5))) ++
          [bs.drop (5 * (bs.length / 5))] := by
  intro n
  induction n using Nat.strong_induction_on with
  | _ n ih =>
    intro bs hn hr
    have hb : bs ≠ [] := by
      intro h0; rw [h0] at hr; simp at hr
    have hpos : 0 < bs.length := List.length_pos.mpr hb
    by_cases hlt : bs.length < 5
    · have hdiv : bs.length / 5 = 0 := by omega
      rw [hdiv, Nat.mul_zero, List.take_zero, List.drop_zero, chunkBytes_nil,
        List.nil_append, chunkBytes_cons bs hb,
        List.take_of_length_le (by omega), List.drop_eq_nil_of_le (by omega),
        chunkBytes_nil]
    · have hge : 5 ≤ bs.length := by omega
      have hdrop5 : (bs.drop 5).length = bs.length - 5 := by simp
      have hrec := ih (bs.drop 5).length (by omega) (bs.drop 5) rfl
        (by omega)
      rw [chunkBytes_cons bs hb, hrec]
      have h5le : 5 * (bs.length / 5) ≤ bs.length := by omega
      have htk : bs.take (5 * (bs.length / 5)) ≠ [] := by
        intro h0
        have hlen0 := congrArg List.length h0
        rw [List.length_take, Nat.min_eq_left h5le] at hlen0
        simp at hlen0
        omega
      rw [chunkBytes_cons _ htk]
      have e1 : (bs.take (5 * (bs.length / 5))).take 5 = bs.take 5 := by
        rw [List.take_take]
        congr 1
        omega
      have e2 : (bs.take (5 * (bs.length / 5))).drop 5 =
          (bs.drop 5).take (5 * ((bs.drop 5).length / 5)) := by
        rw [List.drop_take]
        congr 1
        rw [hdrop5]
        omega
      have e3 : bs.drop (5 * (bs.length / 5)) =
          (bs.drop 5).drop (5 * ((bs.drop 5).length / 5)) := by
        rw [List.drop_drop]
        congr 1
        rw [hdrop5]
        omega
      rw [e1, e2, e3]
      simp

theorem chunkBytes_split (bs : List Nat) (hr : bs.length % 5 ≠ 0) :
    chunkBytes bs =
      chunkBytes (bs.take (5 * (bs.length / 5))) ++
        [bs.drop (5 * (bs.length / 5))] :=
  chunkBytes_split_aux bs.length bs rfl hr

/-! ### Appending a short trailing fragment to the instruction stream -/

theorem runLoop_frag_exit (instrs : List (List Nat)) (frag : List Nat)
    (h5 : frag.length ≠ 5) (fuel : Nat) (m : UVMMemory)
    (hip : ¬ m.ip < instrs.length) :
    runLoop (instrs ++ [frag]) (fuel + 1) m =
      some (.ok (m, if m.ip = instrs.length
        then [.runtimeError m.ip (.badLength frag.length)] else [])) := by
  by_cases hip2 : m.ip = instrs.length
  · have hlt : m.ip < (instrs ++ [frag]).length := by simp; omega
    rw [runLoop_succ (instrs ++ [frag]) fuel m hlt]
    have hg : (instrs ++ [frag]).get ⟨m.ip, hlt⟩ = frag := by
      rw [List.get_eq_getElem]
      exact List.getElem_concat_length instrs frag m.ip hip2 _
    rw [hg]
    have hd : decode_instruction frag = .error (.badLength frag.length) := by
      rw [decode_instruction, if_pos h5]
    rw [hd]
    simp [hip2]
  · rw [runLoop_exit (instrs ++ [frag]) (fuel + 1) m (by simp; omega)]
    simp [hip2]

theorem runLoop_append_frag (instrs : List (List Nat)) (frag : List Nat)
    (h5 : frag.length ≠ 5) (fuel : Nat) :
    ∀ (m : UVMMemory),
      (∀ m2 log, runLoop instrs fuel m = some (.ok (m2, log)) →
        runLoop (instrs ++ [frag]) (fuel + 1) m =
          some (.ok (m2, log ++
            (if m2.ip = instrs.length
             then [.runtimeError m2.ip (.badLength frag.length)] else [])))) ∧
      (∀ em, runLoop instrs fuel m = some (.error em) →
        runLoop (instrs ++ [frag]) (fuel + 1) m = some (.error em)) := by
  induction fuel with
  | zero =>
    intro m
    constructor
    · intro m2 log hrun
      by_cases hip : m.ip < instrs.length
      · rw [runLoop, dif_pos hip] at hrun; simp at hrun
      · rw [runLoop_exit instrs 0 m hip] at hrun
        have h12 : m = m2 ∧ ([] : List LogEntry) = log := by simpa using hrun
        obtain ⟨rfl, hlog⟩ := h12
        subst hlog
        simp only [List.nil_append]
        exact runLoop_frag_exit instrs frag h5 0 m hip
    · intro em hrun
      by_cases hip : m.ip < instrs.length
      · rw [runLoop, dif_pos hip] at hrun; simp at hrun
      · rw [runLoop_exit instrs 0 m hip] at hrun; simp at hrun
  | succ f ih =>
    intro m
    by_cases hip : m.ip < instrs.length
    · have hlt : m.ip < (instrs ++ [frag]).length := by simp; omega
      have hg : (instrs ++ [frag]).get ⟨m.ip, hlt⟩ = instrs.get ⟨m.ip, hip⟩ :=
        List.get_append_left instrs [frag] hip
      have hnip : ¬ m.ip = instrs.length := by omega
      constructor
      · intro m2 log hrun
        rw [runLoop_succ instrs f m hip] at hrun
        rw [runLoop_succ (instrs ++ [frag]) (f + 1) m hlt, hg]
        rcases hd : decode_instruction (instrs.get ⟨m.ip, hip⟩)
          with e | ⟨cmd, operand⟩
        · rw [hd] at hrun
          have h12 : m = m2 ∧ [LogEntry.runtimeError m.ip e] = log := by
            simpa using hrun
          obtain ⟨rfl, hlog⟩ := h12
          subst hlog
          simp [hnip]
        · rw [hd] at hrun
          rcases hdisp : dispatch cmd operand m with em | om
          · simp [hdisp] at hrun
          · rcases om with _ | m3
            · simp only [hdisp] at hrun ⊢
              have h12 : m = m2 ∧
                  [LogEntry.trace m.ip cmd operand m.acc,
                    LogEntry.unknownCmd cmd] = log := by
                simpa using hrun
              obtain ⟨rfl, hlog⟩ := h12
              subst hlog
              simp [hnip]
            · simp only [hdisp] at hrun ⊢
              rcases hr2 : runLoop instrs f { m3 with ip := m.ip + 1 }
                with _ | (em2 | ⟨m4, log4⟩)
              · rw [hr2] at hrun; simp [consLog] at hrun
              · rw [hr2] at hrun; simp [consLog] at hrun
              · rw [hr2] at hrun
                simp only [consLog] at hrun
                have h12 : m4 = m2 ∧
                    LogEntry.trace m.ip cmd operand m.acc :: log4 = log := by
                  simpa using hrun
                obtain ⟨rfl, hlog⟩ := h12
                subst hlog
                have hstep := (ih { m3 with ip := m.ip + 1 }).1 m4 log4 hr2
                rw [hstep]
                simp [consLog]
      · intro em hrun
        rw [runLoop_succ instrs f m hip] at hrun
        rw [runLoop_succ (instrs ++ [frag]) (f + 1) m hlt, hg]
        rcases hd : decode_instruction (instrs.get ⟨m.ip, hip⟩)
          with e | ⟨cmd, operand⟩
        · rw [hd] at hrun
          simp at hrun
        · rw [hd] at hrun
          rcases hdisp : dispatch cmd operand m with em2 | om
          · simp only [hdisp] at hrun ⊢
            simpa using hrun
          · rcases om with _ | m3
            · simp [hdisp] at hrun
            · simp only [hdisp] at hrun ⊢
              rcases hr2 : runLoop instrs f { m3 with ip := m.ip + 1 }
                with _ | (em2 | ⟨m4, log4⟩)
              · rw [hr2] at hrun; simp [consLog] at hrun
              · rw [hr2] at hrun
                simp only [consLog] at hrun
                have hem : em2 = em := by simpa using hrun
                subst hem
                have hstep := (ih { m3 with ip := m.ip + 1 }).2 em2 hr2
                rw [hstep]
                simp [consLog]
              · rw [hr2] at hrun; simp [consLog] at hrun
    · constructor
      · intro m2 log hrun
        rw [runLoop_exit instrs (f + 1) m hip] at hrun
        have h12 : m = m2 ∧ ([] : List LogEntry) = log := by simpa using hrun
        obtain ⟨rfl, hlog⟩ := h12
        subst hlog
        simp only [List.nil_append]
        exact runLoop_frag_exit instrs frag h5 (f + 1) m hip
      · intro em hrun
        rw [runLoop_exit instrs (f + 1) m hip] at hrun; simp at hrun

/-! ## Claims -/

/-- C7: `pack_instruction` fails with an `EncodingError` exactly when the
opcode is outside `[0, 128)` or the operand is outside `[0, 2^26)`;
otherwise it returns a 5-byte word whose little-endian value is
`opcode | (operand << 7)` (low 7 bits the opcode, remaining bits the
operand), and in particular the four regression fixtures
`encode(14,381)`, `encode(11,435)`, `encode(94,308)`, `encode(69,989)`
produce the documented bytes. -/
theorem pack_instruction_spec :
    (∀ a b : Int, (∃ e, pack_instruction a b = .error e) ↔
      (a < 0 ∨ 128 ≤ a ∨ b < 0 ∨ 2 ^ 26 ≤ b)) ∧
    (∀ (a b : Int) (w : List Nat), pack_instruction a b = .ok w →
      w.length = 5 ∧ fromBytesLE w = a.toNat ||| (b.toNat <<< 7) ∧
      fromBytesLE w &&& 0x7F = a.toNat ∧ fromBytesLE w >>> 7 = b.toNat) ∧
    pack_instruction 14 381 = .ok [0x8E, 0xBE, 0x00, 0x00, 0x00] ∧
    pack_instruction 11 435 = .ok [0x8B, 0xD9, 0x00, 0x00, 0x00] ∧
    pack_instruction 94 308 = .ok [0x5E, 0x9A, 0x00, 0x00, 0x00] ∧
    pack_instruction 69 989 = .ok [0xC5, 0xEE, 0x01, 0x00, 0x00] := by
  have h7 : (1 <<< 7 : Int) = 128 := by decide
  have h26 : (1 <<< 26 : Int) = 67108864 := by decide
  have h2p : (2 : Int) ^ 26 = 67108864 := by norm_num
  have h2pn : (2 : Nat) ^ 26 = 67108864 := by norm_num
  refine ⟨?_, ?_, by decide, by decide, by decide, by decide⟩
  · intro a b
    constructor
    · rintro ⟨e, he⟩
      by_cases c1 : a < 0 ∨ (1 <<< 7 : Int) ≤ a
      · rw [h7] at c1; omega
      · by_cases c2 : b < 0 ∨ (1 <<< 26 : Int) ≤ b
        · rw [h26] at c2; rw [h2p]; omega
        · rw [pack_instruction, if_neg c1, if_neg c2] at he
          simp at he
    · intro hc
      by_cases c1 : a < 0 ∨ (1 <<< 7 : Int) ≤ a
      · exact ⟨.encodingA a, by rw [pack_instruction, if_pos c1]⟩
      · have c2 : b < 0 ∨ (1 <<< 26 : Int) ≤ b := by
          rw [h26]; rw [h7] at c1; rw [h2p] at hc; omega
        exact ⟨.encodingB b, by rw [pack_instruction, if_neg c1, if_pos c2]⟩
  · intro a b w hw
    by_cases c1 : a < 0 ∨ (1 <<< 7 : Int) ≤ a
    · rw [pack_instruction, if_pos c1] at hw; simp at hw
    · by_cases c2 : b < 0 ∨ (1 <<< 26 : Int) ≤ b
      · rw [pack_instruction, if_neg c1, if_pos c2] at hw; simp at hw
      · rw [pack_instruction, if_neg c1, if_neg c2] at hw
        have hw2 : toBytesLE 5 (a.toNat ||| (b.toNat <<< 7)) = w := by
          simpa using hw
        subst hw2
        have ha : a.toNat < 128 := by rw [h7] at c1; omega
        have hb : b.toNat < 2 ^ 26 := by rw [h26] at c2; omega
        have hv := fromBytesLE_toBytesLE 5 _ (word_value_lt _ _ ha hb)
        refine ⟨toBytesLE_length 5 _, hv, ?_, ?_⟩
        · rw [hv]; exact word_low_bits _ _ ha
        · rw [hv]; exact word_high_bits _ _ ha

/-- C7 witness: the characterization applied to the encoded word of
`encode(14, 381)`. -/
theorem pack_instruction_spec_witness :
    ([0x8E, 0xBE, 0x00, 0x00, 0x00] : List Nat).length = 5 ∧
    fromBytesLE [0x8E, 0xBE, 0x00, 0x00, 0x00] =
      (14 : Int).toNat ||| ((381 : Int).toNat <<< 7) ∧
    fromBytesLE [0x8E, 0xBE, 0x00, 0x00, 0x00] &&& 0x7F = (14 : Int).toNat ∧
    fromBytesLE [0x8E, 0xBE, 0x00, 0x00, 0x00] >>> 7 = (381 : Int).toNat :=
  pack_instruction_spec.2.1 14 381 [0x8E, 0xBE, 0x00, 0x00, 0x00] (by decide)

/-- C2 counterexample: `encode(0, 0)` succeeds (opcode 0 is inside the
declared range `[0, 128)`), but decoding the resulting word fails with
an unknown-opcode error instead of returning `(opcode_name(0), 0)`,
because the opcode table contains only 11, 14, 69 and 94. So decode
after encode is not the identity on the full declared ranges. -/
theorem decode_encode_cex :
    pack_instruction 0 0 = .ok [0, 0, 0, 0, 0] ∧
    decode_instruction [0, 0, 0, 0, 0] = .error (.unknownOpcode 0) := by
  decide

/-- C2 (amended): for every opcode A that is in the opcode table
({11, 14, 69, 94}) and every operand B in `[0, 2^26)`, decoding the
5-byte word produced by `encode(A, B)` succeeds and returns
`(opcode_name(A), B)`. -/
theorem decode_encode_id (a b : Int)
    (ha : a = 11 ∨ a = 14 ∨ a = 69 ∨ a = 94) (hb0 : 0 ≤ b) (hb : b < 2 ^ 26) :
    ∃ name w, OPCODE_NAMES a.toNat = some name ∧
      pack_instruction a b = .ok w ∧
      decode_instruction w = .ok (name, b.toNat) := by
  have h7 : (1 <<< 7 : Int) = 128 := by decide
  have h26 : (1 <<< 26 : Int) = 67108864 := by decide
  have h2p : (2 : Int) ^ 26 = 67108864 := by norm_num
  have h2pn : (2 : Nat) ^ 26 = 67108864 := by norm_num
  have hc2 : ¬ (b < 0 ∨ (1 <<< 26 : Int) ≤ b) := by rw [h26]; rw [h2p] at hb; omega
  have hbn : b.toNat < 2 ^ 26 := by rw [h2pn]; rw [h2p] at hb; omega
  rcases ha with rfl | rfl | rfl | rfl
  · exact ⟨"read_value", _, rfl,
      by rw [pack_instruction, if_neg (by rw [h7]; omega), if_neg hc2]; rfl,
      decode_toBytes 11 b.toNat (by norm_num) hbn "read_value" rfl⟩
  · exact ⟨"load_const", _, rfl,
      by rw [pack_instruction, if_neg (by rw [h7]; omega), if_neg hc2]; rfl,
      decode_toBytes 14 b.toNat (by norm_num) hbn "load_const" rfl⟩
  · exact ⟨"less", _, rfl,
      by rw [pack_instruction, if_neg (by rw [h7]; omega), if_neg hc2]; rfl,
      decode_toBytes 69 b.toNat (by norm_num) hbn "less" rfl⟩
  · exact ⟨"write_value", _, rfl,
      by rw [pack_instruction, if_neg (by rw [h7]; omega), if_neg hc2]; rfl,
      decode_toBytes 94 b.toNat (by norm_num) hbn "write_value" rfl⟩

/-- C2 witness: the amended round-trip at (A, B) = (14, 381). -/
theorem decode_encode_id_witness :
    ∃ name w, OPCODE_NAMES (14 : Int).toNat = some name ∧
      pack_instruction 14 381 = .ok w ∧
      decode_instruction w = .ok (name, (381 : Int).toNat) :=
  decode_encode_id 14 381 (by norm_num) (by norm_num) (by norm_num)

/-- C6: executing `less(B)` at an in-range address stores into
`memory[B]` the value 1 when the previous `memory[B]` (the left-hand
side) is strictly less than the accumulator (the right-hand side) and 0
otherwise; the accumulator and the stack are unchanged. The comparison
is `memory[B] < acc`, never the reverse. -/
theorem less_stores_lhs_lt_acc (m : UVMMemory) (B : Nat)
    (hB : B < m.data.length) :
    dispatch "less" B m =
      .ok (some { m with
        data := m.data.set B (if m.data.getD B 0 < m.acc then 1 else 0) }) ∧
    ∀ m2, dispatch "less" B m = .ok (some m2) →
      m2.acc = m.acc ∧ m2.stack = m.stack ∧
      m2.data.getD B 0 = (if m.data.getD B 0 < m.acc then 1 else 0) := by
  have h1 := dispatch_less B m hB
  refine ⟨h1, ?_⟩
  intro m2 h2
  rw [h1] at h2
  have hm : { m with
      data := m.data.set B (if m.data.getD B 0 < m.acc then 1 else 0) } = m2 := by
    simpa using h2
  subst hm
  refine ⟨rfl, rfl, ?_⟩
  simp [List.getD_eq_getElem?_getD, List.getElem?_set_self hB]

/-- C6 witness: `less(0)` on memory `[5]` with accumulator 3 stores 0
(since the comparison is 5 < 3, not 3 < 5). -/
theorem less_stores_lhs_lt_acc_witness :
    dispatch "less" 0 ⟨[5], [], 0, 3⟩ = .ok (some ⟨[0], [], 0, 3⟩) :=
  (less_stores_lhs_lt_acc ⟨[5], [], 0, 3⟩ 0 (by decide)).1.trans (by decide)

/-- C8: decoding a 5-byte word whose low 7 bits are not one of
{14, 11, 94, 69} fails with a `DecodingError`, and when the interpreter
fetches any word whose decode fails it appends an error trace entry and
halts the loop at that instruction, returning the memory unchanged (so
the accumulator and all data-memory effects of previously executed
instructions stay intact). -/
theorem unknown_opcode_halts :
    (∀ w : List Nat, w.length = 5 →
      fromBytesLE w &&& 0x7F ≠ 14 → fromBytesLE w &&& 0x7F ≠ 11 →
      fromBytesLE w &&& 0x7F ≠ 94 → fromBytesLE w &&& 0x7F ≠ 69 →
      decode_instruction w = .error (.unknownOpcode (fromBytesLE w &&& 0x7F))) ∧
    (∀ (instructions : List (List Nat)) (fuel : Nat) (m : UVMMemory)
      (e : VMError) (h : m.ip < instructions.length),
      decode_instruction (instructions.get ⟨m.ip, h⟩) = .error e →
      runLoop instructions (fuel + 1) m =
        some (.ok (m, [.runtimeError m.ip e]))) := by
  constructor
  · intro w hlen h14 h11 h94 h69
    rw [decode_instruction, if_neg (by omega)]
    simp only [OPCODE_NAMES, if_neg h14, if_neg h11, if_neg h94, if_neg h69]
  · intro instructions fuel m e h hd
    rw [runLoop_succ instructions fuel m h, hd]

/-- C8 witness: the word `[1,0,0,0,0]` (low 7 bits = 1, an unused
opcode) fails to decode; fetched as the only instruction on a fresh
2-cell memory, it halts the loop with an error entry and the memory
unchanged. -/
theorem unknown_opcode_halts_witness :
    decode_instruction [1, 0, 0, 0, 0] =
      .error (.unknownOpcode (fromBytesLE [1, 0, 0, 0, 0] &&& 0x7F)) ∧
    runLoop [[1, 0, 0, 0, 0]] (0 + 1) (UVMMemory.init 2) =
      some (.ok (UVMMemory.init 2,
        [.runtimeError (UVMMemory.init 2).ip (.unknownOpcode 1)])) :=
  ⟨unknown_opcode_halts.1 [1, 0, 0, 0, 0] (by decide) (by decide) (by decide)
      (by decide) (by decide),
    unknown_opcode_halts.2 [[1, 0, 0, 0, 0]] 0 (UVMMemory.init 2)
      (.unknownOpcode 1) (by decide) (by decide)⟩

/-- C10: frame property of the dispatch. `load_const` and an in-range
`read_value` leave every data cell and the stack unchanged; an in-range
`write_value` or `less` leaves the stack, the memory size, and every
cell other than the operand address unchanged. -/
theorem frame_effects :
    (∀ (operand : Nat) (m : UVMMemory),
      ∃ m2, dispatch "load_const" operand m = .ok (some m2) ∧
        m2.data = m.data ∧ m2.stack = m.stack) ∧
    (∀ (operand : Nat) (m : UVMMemory), operand < m.data.length →
      ∃ m2, dispatch "read_value" operand m = .ok (some m2) ∧
        m2.data = m.data ∧ m2.stack = m.stack) ∧
    (∀ (operand : Nat) (m : UVMMemory), operand < m.data.length →
      ∃ m2, dispatch "write_value" operand m = .ok (some m2) ∧
        m2.stack = m.stack ∧ m2.data.length = m.data.length ∧
        ∀ j, j ≠ operand → m2.data.getD j 0 = m.data.getD j 0) ∧
    (∀ (operand : Nat) (m : UVMMemory), operand < m.data.length →
      ∃ m2, dispatch "less" operand m = .ok (some m2) ∧
        m2.stack = m.stack ∧ m2.data.length = m.data.length ∧
        ∀ j, j ≠ operand → m2.data.getD j 0 = m.data.getD j 0) := by
  refine ⟨?_, ?_, ?_, ?_⟩
  · intro operand m
    exact ⟨_, dispatch_load_const operand m, rfl, rfl⟩
  · intro operand m h
    exact ⟨_, dispatch_read_value operand m h, rfl, rfl⟩
  · intro operand m h
    refine ⟨_, dispatch_write_value operand m h, rfl, by simp, ?_⟩
    intro j hj
    simp [List.getD_eq_getElem?_getD, List.getElem?_set_ne (Ne.symm hj)]
  · intro operand m h
    refine ⟨_, dispatch_less operand m h, rfl, by simp, ?_⟩
    intro j hj
    simp [List.getD_eq_getElem?_getD, List.getElem?_set_ne (Ne.symm hj)]

/-- C10 witness: the `write_value` frame fact at address 0 of the
two-cell memory `[5, 9]` with accumulator 7. -/
theorem frame_effects_witness :
    ∃ m2, dispatch "write_value" 0 ⟨[5, 9], [], 0, 7⟩ = .ok (some m2) ∧
      m2.stack = (⟨[5, 9], [], 0, 7⟩ : UVMMemory).stack ∧
      m2.data.length = (⟨[5, 9], [], 0, 7⟩ : UVMMemory).data.length ∧
      ∀ j, j ≠ 0 → m2.data.getD j 0 =
        (⟨[5, 9], [], 0, 7⟩ : UVMMemory).data.getD j 0 :=
  frame_effects.2.2.1 0 ⟨[5, 9], [], 0, 7⟩ (by decide)

/-! ### Single-word programs that raise -/

theorem chunkBytes_word (w : List Nat) (h : w.length = 5) :
    chunkBytes w = [w] := by
  have hne : w ≠ [] := by intro h0; rw [h0] at h; simp at h
  rw [chunkBytes_cons w hne, List.take_of_length_le (by omega),
    List.drop_eq_nil_of_le (by omega), chunkBytes_nil]

theorem run_program_eq (bytecode : List Nat) (m : UVMMemory) :
    run_program bytecode m =
      match runLoop (chunkBytes bytecode) (chunkBytes bytecode).length m with
      | none => .outOfFuel
      | some (.error (e, m2)) => .raised e m2
      | some (.ok (m2, log)) =>
        .finished m2 (.info (chunkBytes bytecode).length :: log ++
          [.summary m2.ip m2.acc (m2.data.take 16)]) := rfl

theorem run_word_raise (a b : Nat) (name : String) (m : UVMMemory)
    (e : VMError) (ha : a < 128) (hb : b < 2 ^ 26)
    (hn : OPCODE_NAMES a = some name) (hip : m.ip = 0)
    (hdisp : dispatch name b m = .error (e, m)) :
    run_program (toBytesLE 5 (a ||| (b <<< 7))) m = .raised e m := by
  have hw : (toBytesLE 5 (a ||| (b <<< 7))).length = 5 := toBytesLE_length 5 _
  have hchunk := chunkBytes_word _ hw
  have hlt : m.ip < ([toBytesLE 5 (a ||| (b <<< 7))] : List (List Nat)).length := by
    rw [hip]; simp
  have hget : ([toBytesLE 5 (a ||| (b <<< 7))] : List (List Nat)).get ⟨m.ip, hlt⟩ =
      toBytesLE 5 (a ||| (b <<< 7)) := by
    rcases m with ⟨data, stack, ip, acc⟩
    simp only [UVMMemory.ip] at hip
    subst hip
    rfl
  have hrun : runLoop [toBytesLE 5 (a ||| (b <<< 7))]
      ([toBytesLE 5 (a ||| (b <<< 7))] : List (List Nat)).length m =
      some (.error (e, m)) := by
    have h01 : ([toBytesLE 5 (a ||| (b <<< 7))] : List (List Nat)).length = 0 + 1 :=
      rfl
    rw [h01, runLoop_succ _ 0 m hlt, hget,
      decode_toBytes a b ha hb name hn]
    simp only [hdisp]
  rw [run_program_eq, hchunk, hrun]

/-- C1 counterexample: on a fresh 16-cell memory, the single
instruction `read_value 5000` (operand address out of range) makes
`run_program` raise the `MemoryAccessError` past the execution
boundary instead of catching it and returning a log: the loop's
`try/except` wraps only the decode step. This refutes the claim that
out-of-range accesses are caught and folded into the trace. -/
theorem oob_access_cex :
    run_program (toBytesLE 5 (11 ||| (5000 <<< 7))) (UVMMemory.init 16) =
      .raised (.memoryRead 5000) (UVMMemory.init 16) := by
  decide

/-- C1 (amended): for every bytecode program, at every loop position
and machine state — in particular a state carrying the accumulator and
data-memory effects of previously executed instructions — an executed
`read_value`, `write_value` or `less` whose operand address is outside
`0..memory_size-1` makes the loop propagate the `MemoryAccessError`
(`IndexError`) as an uncaught exception, with the memory returned
exactly as the previous instructions left it (no error trace entry is
appended): the loop's `try/except` wraps only the decode step. The
last conjunct lifts this to `run_program`: an uncaught loop exception
becomes a raise out of `run_program`, never a completed log. -/
theorem run_oob_raises :
    (∀ (instructions : List (List Nat)) (fuel : Nat) (m : UVMMemory) (B : Nat)
      (h : m.ip < instructions.length),
      decode_instruction (instructions.get ⟨m.ip, h⟩) = .ok ("read_value", B) →
      ¬ B < m.data.length →
      runLoop instructions (fuel + 1) m = some (.error (.memoryRead B, m))) ∧
    (∀ (instructions : List (List Nat)) (fuel : Nat) (m : UVMMemory) (B : Nat)
      (h : m.ip < instructions.length),
      decode_instruction (instructions.get ⟨m.ip, h⟩) = .ok ("write_value", B) →
      ¬ B < m.data.length →
      runLoop instructions (fuel + 1) m = some (.error (.memoryWrite B, m))) ∧
    (∀ (instructions : List (List Nat)) (fuel : Nat) (m : UVMMemory) (B : Nat)
      (h : m.ip < instructions.length),
      decode_instruction (instructions.get ⟨m.ip, h⟩) = .ok ("less", B) →
      ¬ B < m.data.length →
      runLoop instructions (fuel + 1) m = some (.error (.memoryRead B, m))) ∧
    (∀ (bytecode : List Nat) (m m2 : UVMMemory) (e : VMError),
      runLoop (chunkBytes bytecode) (chunkBytes bytecode).length m =
        some (.error (e, m2)) →
      run_program bytecode m = .raised e m2) := by
  refine ⟨?_, ?_, ?_, ?_⟩
  · intro instructions fuel m B h hd hoob
    rw [runLoop_succ instructions fuel m h, hd]
    simp only [dispatch_read_value_oob B m hoob]
  · intro instructions fuel m B h hd hoob
    rw [runLoop_succ instructions fuel m h, hd]
    simp only [dispatch_write_value_oob B m hoob]
  · intro instructions fuel m B h hd hoob
    rw [runLoop_succ instructions fuel m h, hd]
    simp only [dispatch_less_oob B m hoob]
  · intro bytecode m m2 e hr
    rw [run_program_eq, hr]

/-- C1 witness: the two-instruction program `load_const 7` then
`write_value 5` on a fresh 1-cell memory. The first conjunct applies
the loop statement at position 1, in the state left by the executed
`load_const` (accumulator 7); the second applies the lifting conjunct
end-to-end: `run_program` raises `memoryWrite 5`, returning the memory
with the prior instruction's effect (accumulator 7, ip still 1)
intact, instead of finishing with a log. -/
theorem run_oob_raises_witness :
    runLoop [toBytesLE 5 (14 ||| (7 <<< 7)), toBytesLE 5 (94 ||| (5 <<< 7))]
        (0 + 1) ⟨[0], [], 1, 7⟩ =
      some (.error (.memoryWrite 5, ⟨[0], [], 1, 7⟩)) ∧
    run_program (toBytesLE 5 (14 ||| (7 <<< 7)) ++ toBytesLE 5 (94 ||| (5 <<< 7)))
        (UVMMemory.init 1) = .raised (.memoryWrite 5) ⟨[0], [], 1, 7⟩ :=
  ⟨run_oob_raises.2.1
      [toBytesLE 5 (14 ||| (7 <<< 7)), toBytesLE 5 (94 ||| (5 <<< 7))] 0
      ⟨[0], [], 1, 7⟩ 5 (by decide) (by decide) (by decide),
    run_oob_raises.2.2.2
      (toBytesLE 5 (14 ||| (7 <<< 7)) ++ toBytesLE 5 (94 ||| (5 <<< 7)))
      (UVMMemory.init 1) ⟨[0], [], 1, 7⟩ (.memoryWrite 5) (by decide)⟩

/-! ### Line-parsing characterization -/

theorem parse_line_eq (line : List Char) (hne : stripLine line ≠ []) :
    parse_line line =
      match splitOnChar (Char.ofNat 59) (stripLine line) with
      | [] => .error (.missingArg "")
      | p0 :: ps =>
        match ps with
        | [] => .error (.missingArg (String.mk (trimChars p0)))
        | p1 :: _ =>
          if trimChars p1 ≠ [] then
            match parse_int (trimChars p1) with
            | some n => .ok (some (String.mk (trimChars p0), n))
            | none => .error (.badInt (String.mk (trimChars p1)))
          else .error (.missingArg (String.mk (trimChars p0))) := by
  rw [parse_line, if_neg hne]

/-- C5 counterexample: the line `load_const;1;2` contains a second
`;`-separated field, yet assembly succeeds — the argument is taken from
the field between the first and second `;` and the extra field is
silently ignored, not rejected with a `SyntaxError`. -/
theorem parse_extra_field_cex :
    full_asm "load_const;1;2" = .ok ([142, 0, 0, 0, 0], [("load_const", 1)]) := by
  decide

/-- C5 (amended): the assembler splits each surviving line at every
`;`; the mnemonic is the first field (stripped) and the argument is the
second field only — any further fields are ignored. A missing second
field, or one that is empty after stripping, fails with an error naming
the mnemonic; a nonempty second field that does not parse as a base-10
signed integer fails with a parse error. -/
theorem parse_line_fields :
    (∀ (line : List Char) (p0 : List Char), stripLine line ≠ [] →
      splitOnChar (Char.ofNat 59) (stripLine line) = [p0] →
      parse_line line = .error (.missingArg (String.mk (trimChars p0)))) ∧
    (∀ (line p0 p1 : List Char) (ps : List (List Char)), stripLine line ≠ [] →
      splitOnChar (Char.ofNat 59) (stripLine line) = p0 :: p1 :: ps →
      trimChars p1 = [] →
      parse_line line = .error (.missingArg (String.mk (trimChars p0)))) ∧
    (∀ (line p0 p1 : List Char) (ps : List (List Char)) (n : Int),
      stripLine line ≠ [] →
      splitOnChar (Char.ofNat 59) (stripLine line) = p0 :: p1 :: ps →
      parse_int (trimChars p1) = some n →
      parse_line line = .ok (some (String.mk (trimChars p0), n))) ∧
    (∀ (line p0 p1 : List Char) (ps : List (List Char)), stripLine line ≠ [] →
      splitOnChar (Char.ofNat 59) (stripLine line) = p0 :: p1 :: ps →
      trimChars p1 ≠ [] → parse_int (trimChars p1) = none →
      parse_line line = .error (.badInt (String.mk (trimChars p1)))) := by
  refine ⟨?_, ?_, ?_, ?_⟩
  · intro line p0 hne hsplit
    rw [parse_line_eq line hne, hsplit]
  · intro line p0 p1 ps hne hsplit h1
    rw [parse_line_eq line hne, hsplit]
    simp [h1]
  · intro line p0 p1 ps n hne hsplit hn
    have h1 : trimChars p1 ≠ [] := by
      intro h0
      rw [h0] at hn
      simp [parse_int] at hn
    rw [parse_line_eq line hne, hsplit]
    simp only [if_pos h1, hn]
  · intro line p0 p1 ps hne hsplit h1 hn
    rw [parse_line_eq line hne, hsplit]
    simp only [if_pos h1, hn]

/-- C5 witness: the missing-argument case on the line `less`, and the
extra-field case on the line `load_const;1;2` (argument 1 parsed, the
field `2` ignored). -/
theorem parse_line_fields_witness :
    parse_line ("less".toList) =
      .error (.missingArg (String.mk (trimChars ("less".toList)))) ∧
    parse_line ("load_const;1;2".toList) =
      .ok (some (String.mk (trimChars ("load_const".toList)), 1)) :=
  ⟨parse_line_fields.1 "less".toList "less".toList (by decide) (by decide),
    parse_line_fields.2.2.1 "load_const;1;2".toList "load_const".toList
      ("1".toList) [("2".toList)] 1 (by decide) (by decide) (by decide)⟩

/-! ### Assembly lowering lemmas -/

theorem pack_ok_shape (a b : Int) (w : List Nat)
    (h : pack_instruction a b = .ok w) :
    w = toBytesLE 5 (a.toNat ||| (b.toNat <<< 7)) := by
  rw [pack_instruction] at h
  by_cases c1 : a < 0 ∨ (1 <<< 7 : Int) ≤ a
  · rw [if_pos c1] at h; simp at h
  · rw [if_neg c1] at h
    by_cases c2 : b < 0 ∨ (1 <<< 26 : Int) ≤ b
    · rw [if_pos c2] at h; simp at h
    · rw [if_neg c2] at h; simpa using h.symm

theorem encode_entry_ok_length (op : String) (arg : Int) (w : List Nat)
    (h : encode_entry op arg = .ok w) : w.length = 5 := by
  rw [encode_entry] at h
  split at h
  · rw [asm_load_const] at h
    rw [pack_ok_shape _ _ _ h]; exact toBytesLE_length 5 _
  · split at h
    · rw [asm_read_value] at h
      rw [pack_ok_shape _ _ _ h]; exact toBytesLE_length 5 _
    · split at h
      · rw [asm_write_value] at h
        rw [pack_ok_shape _ _ _ h]; exact toBytesLE_length 5 _
      · split at h
        · rw [asm_less] at h
          rw [pack_ok_shape _ _ _ h]; exact toBytesLE_length 5 _
        · simp at h

theorem asm_ok_flatten (ir : List (String × Int)) (bc : List Nat)
    (h : asm ir = .ok bc) :
    ∃ ws : List (List Nat), ws.length = ir.length ∧ bc = ws.flatten ∧
      ∀ i, i < ir.length →
        encode_entry (ir.getD i ("", 0)).1 (ir.getD i ("", 0)).2 =
            .ok (ws.getD i []) ∧ (ws.getD i []).length = 5 := by
  induction ir generalizing bc with
  | nil =>
    have hbc : ([] : List Nat) = bc := by simpa [asm] using h
    subst hbc
    exact ⟨[], rfl, rfl, fun i hi => absurd hi (by simp)⟩
  | cons e rest ih =>
    obtain ⟨op, arg⟩ := e
    rw [asm] at h
    rcases he : encode_entry op arg with e1 | w
    · rw [he] at h; simp at h
    · rw [he] at h
      rcases hr : asm rest with e2 | ws0
      · rw [hr] at h; simp at h
      · rw [hr] at h
        have hbc : w ++ ws0 = bc := by simpa using h
        obtain ⟨ws, hlen, hflat, hall⟩ := ih ws0 hr
        refine ⟨w :: ws, by simp [hlen], ?_, ?_⟩
        · rw [← hbc, hflat]; simp
        · intro i hi
          cases i with
          | zero =>
            exact ⟨by simpa using he, encode_entry_ok_length op arg w he⟩
          | succ j =>
            have hj := hall j (by simp at hi; omega)
            simpa using hj

/-- C9: assembly is atomic. If `full_asm` succeeds, the returned IR is
exactly the parse of the source lines and the returned bytecode is the
concatenation, in line order, of one 5-byte word per IR entry; if any
line fails to parse, or the lowering of any IR entry fails (unknown
mnemonic or encoding error), `full_asm` returns that single error and
no bytecode or IR at all. -/
theorem full_asm_atomic :
    (∀ text bc ir, full_asm text = .ok (bc, ir) →
      parse_lines (splitLines text) = .ok ir ∧ asm ir = .ok bc ∧
      ∃ ws : List (List Nat), ws.length = ir.length ∧ bc = ws.flatten ∧
        ∀ i, i < ir.length →
          encode_entry (ir.getD i ("", 0)).1 (ir.getD i ("", 0)).2 =
              .ok (ws.getD i []) ∧ (ws.getD i []).length = 5) ∧
    (∀ text e, parse_lines (splitLines text) = .error e →
      full_asm text = .error e) ∧
    (∀ text ir e, parse_lines (splitLines text) = .ok ir → asm ir = .error e →
      full_asm text = .error e) := by
  refine ⟨?_, ?_, ?_⟩
  · intro text bc ir h
    rw [full_asm] at h
    rcases hp : parse_lines (splitLines text) with e | ir2
    · rw [hp] at h; simp at h
    · simp only [hp] at h
      rcases ha : asm ir2 with e | bc2
      · simp only [ha] at h
        exact absurd h (by simp)
      · simp only [ha] at h
        have h2 : bc2 = bc ∧ ir2 = ir := by simpa using h
        obtain ⟨rfl, rfl⟩ := h2
        exact ⟨rfl, ha, asm_ok_flatten ir2 bc2 ha⟩
  · intro text e hp
    rw [full_asm, hp]
  · intro text ir e hp ha
    rw [full_asm, hp]
    simp only [ha]

/-- C9 witness: the success case on the two-line source
`load_const; 381` / `less;989`. -/
theorem full_asm_atomic_witness :
    parse_lines (splitLines "load_const; 381\nless;989") =
      .ok [("load_const", 381), ("less", 989)] ∧
    asm [("load_const", 381), ("less", 989)] =
      .ok [0x8E, 0xBE, 0x00, 0x00, 0x00, 0xC5, 0xEE, 0x01, 0x00, 0x00] ∧
    ∃ ws : List (List Nat),
      ws.length = ([("load_const", 381), ("less", 989)] : List (String × Int)).length ∧
      ([0x8E, 0xBE, 0x00, 0x00, 0x00, 0xC5, 0xEE, 0x01, 0x00, 0x00] : List Nat) =
        ws.flatten ∧
      ∀ i, i < ([("load_const", 381), ("less", 989)] : List (String × Int)).length →
        encode_entry
            (([("load_const", 381), ("less", 989)] : List (String × Int)).getD i ("", 0)).1
            (([("load_const", 381), ("less", 989)] : List (String × Int)).getD i ("", 0)).2 =
            .ok (ws.getD i []) ∧ (ws.getD i []).length = 5 :=
  full_asm_atomic.1 "load_const; 381\nless;989"
    [0x8E, 0xBE, 0x00, 0x00, 0x00, 0xC5, 0xEE, 0x01, 0x00, 0x00]
    [("load_const", 381), ("less", 989)] (by decide)

set_option maxRecDepth 40000 in
set_option maxHeartbeats 2000000 in
/-- C4 counterexample: assembling and running the program
`load_const;5` / `write_value;0` / `load_const;3` / `less;0` on a fresh
machine state does not leave `memory[0] = 1`: after `write_value;0`
cell 0 holds 5, and `less;0` compares 5 < 3 (stored value on the left,
accumulator on the right), which is false, so it stores 0. -/
theorem run_example_cex :
    ((full_asm "load_const;5\nwrite_value;0\nload_const;3\nless;0").map
      (fun p => match run_program p.1 (UVMMemory.init 16) with
        | .finished m _ => some (m.data.getD 0 0, m.acc, m.ip)
        | _ => none)) ≠ .ok (some ((1 : Int), (3 : Int), 4)) := by
  decide

set_option maxRecDepth 40000 in
set_option maxHeartbeats 2000000 in
/-- C4 (amended): running the bytecode assembled from `load_const;5`
then `write_value;0` then `load_const;3` then `less;0` on a fresh
machine state terminates normally with `memory[0] = 0`, accumulator 3,
and program counter equal to the instruction count 4. -/
theorem run_example_final :
    ((full_asm "load_const;5\nwrite_value;0\nload_const;3\nless;0").map
      (fun p => match run_program p.1 (UVMMemory.init 16) with
        | .finished m _ => some (m.data.getD 0 0, m.acc, m.ip)
        | _ => none)) = .ok (some ((0 : Int), (3 : Int), 4)) := by
  decide

/-! ### Inverting a finished run -/

theorem run_program_finished_inv (bytecode : List Nat) (m m2 : UVMMemory)
    (log : List LogEntry) (h : run_program bytecode m = .finished m2 log) :
    ∃ body, runLoop (chunkBytes bytecode) (chunkBytes bytecode).length m =
        some (.ok (m2, body)) ∧
      log = .info (chunkBytes bytecode).length :: body ++
        [.summary m2.ip m2.acc (m2.data.take 16)] := by
  rw [run_program_eq] at h
  rcases hr : runLoop (chunkBytes bytecode) (chunkBytes bytecode).length m
    with _ | (⟨e, m3⟩ | ⟨m3, body⟩)
  · rw [hr] at h; simp at h
  · simp only [hr] at h
    exact absurd h (by simp)
  · simp only [hr] at h
    have h2 : m3 = m2 ∧ LogEntry.info (chunkBytes bytecode).length :: body ++
        [LogEntry.summary m3.ip m3.acc (m3.data.take 16)] = log := by
      simpa using h
    obtain ⟨rfl, hl⟩ := h2
    exact ⟨body, rfl, hl.symm⟩

/-- C3 counterexample: the 6-byte bytecode `load_const 7` followed by a
single stray byte does not terminate exactly as its 5-byte truncation
does, and the stray fragment is fetched and decode is attempted on it:
the run ends with a logged runtime error (`badLength 1`) at address 1,
visibly different from the truncated run. -/
theorem trailing_cex :
    run_program (toBytesLE 5 (14 ||| (7 <<< 7)) ++ [0]) (UVMMemory.init 1) ≠
      run_program ((toBytesLE 5 (14 ||| (7 <<< 7)) ++ [0]).take 5)
        (UVMMemory.init 1) ∧
    run_program (toBytesLE 5 (14 ||| (7 <<< 7)) ++ [0]) (UVMMemory.init 1) =
      .finished ⟨[0], [], 1, 7⟩
        [.info 2, .trace 0 "load_const" 7 0, .runtimeError 1 (.badLength 1),
          .summary 1 7 [0]] := by
  exact ⟨by decide, by decide⟩

/-- C3 (amended): a bytecode of length `5*k + r` (`0 < r < 5`) whose
first `k` words run to normal completion does not silently ignore the
trailing fragment: the fragment is fetched, its decode fails (length
`r ≠ 5`), the failure is caught, logged as a runtime-error entry at
address `k`, and the loop halts. The final machine state equals that of
the same bytecode truncated to `5*k` bytes; the log additionally
records the startup count `k + 1` and the fragment's error entry, and
no instruction beyond the `k` full words is executed. -/
theorem run_trailing_fragment (bc : List Nat) (m m2 : UVMMemory)
    (body : List LogEntry) (hr5 : bc.length % 5 ≠ 0)
    (htr : run_program (bc.take (5 * (bc.length / 5))) m =
      .finished m2 (.info (bc.length / 5) :: body ++
        [.summary m2.ip m2.acc (m2.data.take 16)]))
    (hip : m2.ip = bc.length / 5) :
    run_program bc m =
      .finished m2 (.info (bc.length / 5 + 1) :: (body ++
        [.runtimeError (bc.length / 5) (.badLength (bc.length % 5))]) ++
        [.summary m2.ip m2.acc (m2.data.take 16)]) := by
  have htk_len : (bc.take (5 * (bc.length / 5))).length = 5 * (bc.length / 5) := by
    rw [List.length_take]
    omega
  have hchunk_tr_len :
      (chunkBytes (bc.take (5 * (bc.length / 5)))).length = bc.length / 5 := by
    rw [chunkBytes_length, htk_len]
    omega
  obtain ⟨body2, hloop, hlog⟩ := run_program_finished_inv _ m m2 _ htr
  have hbody : body2 = body := by
    rw [hchunk_tr_len] at hlog
    have h2 : body ++ [LogEntry.summary m2.ip m2.acc (m2.data.take 16)] =
        body2 ++ [LogEntry.summary m2.ip m2.acc (m2.data.take 16)] := by
      simpa using hlog
    exact (List.append_cancel_right h2).symm
  subst hbody
  have hfrag_len : (bc.drop (5 * (bc.length / 5))).length = bc.length % 5 := by
    rw [List.length_drop]
    omega
  have h5 : (bc.drop (5 * (bc.length / 5))).length ≠ 5 := by
    rw [hfrag_len]
    omega
  have hsim := (runLoop_append_frag (chunkBytes (bc.take (5 * (bc.length / 5))))
      (bc.drop (5 * (bc.length / 5))) h5
      (chunkBytes (bc.take (5 * (bc.length / 5)))).length m).1 m2 body2 hloop
  rw [hchunk_tr_len, hfrag_len, hip, if_pos rfl] at hsim
  have hsplit := chunkBytes_split bc hr5
  have hlen2 : (chunkBytes (bc.take (5 * (bc.length / 5))) ++
      [bc.drop (5 * (bc.length / 5))]).length = bc.length / 5 + 1 := by
    rw [List.length_append, hchunk_tr_len]
    rfl
  rw [run_program_eq, hsplit, hlen2, hsim]

/-- C3 witness: the amended behavior on the 6-byte bytecode
`load_const 7` followed by one stray byte, starting from a fresh 1-cell
memory. -/
theorem run_trailing_fragment_witness :
    run_program (toBytesLE 5 (14 ||| (7 <<< 7)) ++ [0]) (UVMMemory.init 1) =
      .finished ⟨[0], [], 1, 7⟩
        (.info ((toBytesLE 5 (14 ||| (7 <<< 7)) ++ [0]).length / 5 + 1) ::
          ([.trace 0 "load_const" 7 0] ++
            [.runtimeError ((toBytesLE 5 (14 ||| (7 <<< 7)) ++ [0]).length / 5)
              (.badLength ((toBytesLE 5 (14 ||| (7 <<< 7)) ++ [0]).length % 5))]) ++
          [.summary (⟨[0], [], 1, 7⟩ : UVMMemory).ip
            (⟨[0], [], 1, 7⟩ : UVMMemory).acc
            ((⟨[0], [], 1, 7⟩ : UVMMemory).data.take 16)]) :=
  run_trailing_fragment (toBytesLE 5 (14 ||| (7 <<< 7)) ++ [0])
    (UVMMemory.init 1) ⟨[0], [], 1, 7⟩ [.trace 0 "load_const" 7 0]
    (by decide) (by decide) (by decide)

end UVM
